import Mathlib

set_option maxRecDepth 8000

/-!
Shallow embedding of the two extraction pipelines of `src/functions.py`
(phone-number extraction and logo location/URL resolution).  Python strings
are modelled as `List Char`; the specific regular expressions of the source
are compiled by hand into deterministic matching functions over `List Char`.
Character classes (`\d`, `\s`, `\w`, case folding) are modelled on the
character ranges Python's `re` module uses; for `\d` and `\w` the ASCII
ranges are used, which coincide with Python's behaviour on every character
that can reach the corresponding test in this pipeline.
-/

namespace Cial

/-- ASCII digit test: models the regex classes `[0-9]` and `\d` of the source. -/
def isDigitChar (c : Char) : Bool := 48 ≤ c.toNat && c.toNat ≤ 57

/-- Python whitespace (`str.strip()` with no argument, and the regex class `\s`):
tab/newline/vtab/formfeed/carriage-return (9-13), the file/group/record/unit
separators and space (28-32), next-line (133), no-break space (160), and the
Unicode space characters. -/
def isPySpace (c : Char) : Bool :=
  (9 ≤ c.toNat && c.toNat ≤ 13) || (28 ≤ c.toNat && c.toNat ≤ 32) ||
  c.toNat == 133 || c.toNat == 160 || c.toNat == 5760 ||
  (8192 ≤ c.toNat && c.toNat ≤ 8202) || c.toNat == 8232 || c.toNat == 8233 ||
  c.toNat == 8239 || c.toNat == 8287 || c.toNat == 12288

/-- Characters matched by the tail class of `REGEX_NUMBER_WIDE`, which is
written `[-\s\.\0-9]` in the source: the range `\x00`-`'9'` (code points at
most 57, absorbing the literal `-` and `.` as well as digits, parentheses,
`+`, `,`, `/`), together with whitespace. -/
def isWideTail (c : Char) : Bool := c.toNat ≤ 57 || isPySpace c

/-- Length of the match of `REGEX_NUMBER_WIDE`, i.e.
`[+]*[(]{0,1}[0-9]{1,4}[)]{0,1}[-\s\.\0-9]*(?=[^0-9])`, when anchored at the
head of `s` (`none` when the pattern does not match there).  The pattern is
deterministic once backtracking is resolved: `[+]*` is forced maximal (a
leftover `+` can match neither `[(]` nor a digit), the optional `(` is taken
exactly when it is present and followed by a digit, the digit counter takes
`min 4` of the digit run (giving back digits can only expose digit lookahead
positions, which fail), the optional `)` is subsumed by the tail class, and
the greedy tail star backs off to the rightmost position whose next
character exists and is not a digit. -/
def matchWideLen (s : List Char) : Option Nat :=
  let np := (s.takeWhile (fun c => c == '+')).length
  let s1 := s.drop np
  let pl : Nat :=
    match s1 with
    | '(' :: d :: _ => if isDigitChar d then 1 else 0
    | _ => 0
  let s2 := s1.drop pl
  let nd := min (s2.takeWhile isDigitChar).length 4
  if nd = 0 then none
  else
    let s3 := s2.drop nd
    let ts := s3.takeWhile isWideTail
    let after := s3.drop ts.length
    if after.isEmpty then
      let td := (ts.reverse.takeWhile isDigitChar).length
      if td = ts.length then none
      else some (np + pl + nd + (ts.length - td - 1))
    else some (np + pl + nd + ts.length)

/-- Fuelled scanner for `re.findall(REGEX_NUMBER_WIDE, text)`: try to match at
each position, emit the (group-free) match and resume after it, otherwise
advance one character.  Any successful match has positive length (it contains
at least one digit), so fuel equal to the initial length never runs out. -/
def findallWideAux : Nat → List Char → List (List Char)
  | 0, _ => []
  | _ + 1, [] => []
  | fuel + 1, c :: rest =>
    match matchWideLen (c :: rest) with
    | some k => (c :: rest).take k :: findallWideAux fuel ((c :: rest).drop k)
    | none => findallWideAux fuel rest

/-- `re.findall(REGEX_NUMBER_WIDE, text)` of the source. -/
def findallWide (s : List Char) : List (List Char) := findallWideAux s.length s

/-- Python `str.lstrip` with a character-set predicate. -/
def pyLStrip (p : Char → Bool) (s : List Char) : List Char := s.dropWhile p

/-- Python `str.rstrip` with a character-set predicate. -/
def pyRStrip (p : Char → Bool) (s : List Char) : List Char :=
  (s.reverse.dropWhile p).reverse

/-- Python `str.strip` with a character-set predicate. -/
def pyStrip (p : Char → Bool) (s : List Char) : List Char :=
  pyRStrip p (pyLStrip p s)

/-- Python `str.replace("  ", "")`: delete each non-overlapping pair of
spaces, scanning left to right. -/
def replaceDoubleSpace : List Char → List Char
  | ' ' :: ' ' :: rest => replaceDoubleSpace rest
  | c :: rest => c :: replaceDoubleSpace rest
  | [] => []

/-- Python `str.replace(a, b)` for single characters. -/
def replaceChar (a b : Char) (s : List Char) : List Char :=
  s.map (fun c => if c == a then b else c)

/-- The cleaning step of `get_numbers`:
`number.strip().replace("  ", "").replace("\xa0", "-")`. -/
def cleanNumber (number : List Char) : List Char :=
  replaceChar (Char.ofNat 160) '-' (replaceDoubleSpace (pyStrip isPySpace number))

/-- ASCII word character, the regex class `\w` restricted to ASCII; every
character that can appear in a cleaned candidate is either ASCII or
whitespace, so this coincides with Python's `\w` there. -/
def isWordChar (c : Char) : Bool :=
  isDigitChar c || (65 ≤ c.toNat && c.toNat ≤ 90) ||
  (97 ≤ c.toNat && c.toNat ≤ 122) || c.toNat == 95

/-- `re.match(r'\b\d{4}-\d{2}-\d{2}\b', s)`: four digits, hyphen, two digits,
hyphen, two digits at the start of the string (the leading word boundary is
automatic because the first matched character is a digit), followed by a word
boundary, i.e. by the end of the string or a non-word character. -/
def matchesDate (s : List Char) : Bool :=
  match s with
  | a :: b :: c :: d :: '-' :: e :: f :: '-' :: g :: h :: rest =>
    isDigitChar a && isDigitChar b && isDigitChar c && isDigitChar d &&
    isDigitChar e && isDigitChar f && isDigitChar g && isDigitChar h &&
    (match rest with | [] => true | r :: _ => !(isWordChar r))
  | _ => false

/-- Auxiliary for `re.sub(r'\s\s+', '', s)`: the first argument buffers the
whitespace run currently being read (in reverse; its order never matters
because a run is kept only when it has exactly one character). -/
def collapseWsGo (run : List Char) : List Char → List Char
  | [] => if run.length == 1 then run else []
  | c :: rest =>
    if isPySpace c then collapseWsGo (c :: run) rest
    else (if run.length == 1 then run else []) ++ c :: collapseWsGo [] rest

/-- `re.sub(r'\s\s+', '', s)` of the source: every maximal whitespace run of
length at least two is deleted outright, a single whitespace character is
kept. -/
def collapseWs (s : List Char) : List Char := collapseWsGo [] s

/-- Number of digit characters of `s`, i.e. `len(re.findall(r'\d', s))`. -/
def countDigits (s : List Char) : Nat := (s.filter isDigitChar).length

/-- Digit-only projection of a string: `re.sub(r'\D', '', s)`, used both by
the duplicate-removal helper and (negated) by the non-digit-presence check. -/
def digitsOnly (s : List Char) : List Char := s.filter isDigitChar

/-- `re.search(r'[^0-9+\s\(\)-]', part)` succeeds on `c`: a character outside
the allowed class of digits, `+`, whitespace, parentheses and hyphen. -/
def badChar (c : Char) : Bool :=
  !(isDigitChar c || c == '+' || isPySpace c || c == '(' || c == ')' || c == '-')

/-- `re.match(r'^\d{5,}', part)`: the string starts with five digits. -/
def startsFiveDigits : List Char → Bool
  | a :: b :: c :: d :: e :: _ =>
    isDigitChar a && isDigitChar b && isDigitChar c && isDigitChar d && isDigitChar e
  | _ => false

/-- `re.match(r'^[1-9]\d{2,3}', part)`: the string starts with a digit `1`-`9`
followed by at least two further digits. -/
def startsYearLike : List Char → Bool
  | a :: b :: c :: _ =>
    (49 ≤ a.toNat && a.toNat ≤ 57) && isDigitChar b && isDigitChar c
  | _ => false

/-- The in-place mutations applied to a surviving segment of `get_numbers`:
`part.strip('.,').rstrip('( ')`, then `-` and `/` replaced by spaces, then
`re.sub(r'\s\s+', '', part)`. -/
def normalizeSegment (part : List Char) : List Char :=
  collapseWs (replaceChar '/' ' '
    (replaceChar '-' ' '
      (pyRStrip (fun c => c == '(' || c == ' ')
        (pyStrip (fun c => c == '.' || c == ',') part))))

/-- The per-segment filter pipeline of `get_numbers`, in source order: the
digit-count bound 6-15 on the raw segment, then the normalisation above, then
the character-class check, the non-digit-presence check, the five-leading-
digits reject and the leading `[1-9]` three/four-digit reject; a surviving
segment yields its normalised form. -/
def processPart (part : List Char) : Option (List Char) :=
  if 6 ≤ countDigits part ∧ countDigits part ≤ 15 then
    if (normalizeSegment part).any badChar then none
    else if (normalizeSegment part).any (fun c => !(isDigitChar c)) then
      if startsFiveDigits (normalizeSegment part) then none
      else if startsYearLike (normalizeSegment part) then none
      else some (normalizeSegment part)
    else none
  else none

/-- Segments contributed by one wide-net match: clean it, drop it whole when
it is date-shaped, otherwise split on newlines and run each part through the
filter pipeline. -/
def candidateSegments (number : List Char) : List (List Char) :=
  if matchesDate (cleanNumber number) then []
  else ((cleanNumber number).splitOn '\n').filterMap processPart

/-- The full pre-deduplication candidate list (`phone_numbers` in the source),
in discovery order. -/
def collectNumbers (text : List Char) : List (List Char) :=
  ((findallWide text).map candidateSegments).flatten

/-- Loop of `remove_duplicates`: `seen` is the set of digit-only projections
already emitted (a list used only through membership, mirroring the Python
set). -/
def removeDuplicatesAux (seen : List (List Char)) : List (List Char) → List (List Char)
  | [] => []
  | item :: rest =>
    if digitsOnly item ∈ seen then removeDuplicatesAux seen rest
    else item :: removeDuplicatesAux (digitsOnly item :: seen) rest

/-- `remove_duplicates` of the source: keep each candidate whose digit-only
projection has not been seen before. -/
def remove_duplicates (input_list : List (List Char)) : List (List Char) :=
  removeDuplicatesAux [] input_list

/-- `get_numbers` of the source, taking the page text (the result of
`soup.get_text()`): collect, filter and deduplicate the candidates, and
return `none` (Python `None`) when the resulting list is empty. -/
def get_numbers (text : List Char) : Option (List (List Char)) :=
  if remove_duplicates (collectNumbers text) = [] then none
  else some (remove_duplicates (collectNumbers text))

/-! Logo locator.  The document tree produced by BeautifulSoup is modelled as
the list of its elements in document order; the core only ever queries the
first `img` element whose given attribute value matches a case-insensitive
literal aliasTok, which is plain substring search after ASCII lowercasing (the
aliases are lowercase ASCII words without spaces, so matching against the
space-joined multi-valued `class` attribute coincides with matching any
single class token). -/

/-- An element of the parsed document: a tag name and its attributes in
source order. -/
structure Element where
  tag : List Char
  attrs : List (List Char × List Char)

/-- Attribute lookup on an element (`'src' in logo.attrs` / `logo['src']`). -/
def attrLookup (e : Element) (key : List Char) : Option (List Char) :=
  (e.attrs.find? (fun pr => pr.1 == key)).map (fun pr => pr.2)

/-- ASCII lowercasing, the case folding `re.I` performs on the characters that
occur in the attribute values and patterns used here. -/
def lowerAscii (c : Char) : Char :=
  if 65 ≤ c.toNat && c.toNat ≤ 90 then Char.ofNat (c.toNat + 32) else c

/-- Contiguous-substring test: `pat` occurs somewhere inside the second
list. -/
def hasSubList (pat : List Char) : List Char → Bool
  | [] => pat.isEmpty
  | c :: rest => pat.isPrefixOf (c :: rest) || hasSubList pat rest

/-- `re.compile(aliasTok, re.I).search(v)` for a lowercase ASCII literal `aliasTok`:
the lowercased value contains the alias word as a substring. -/
def containsCI (v aliasTok : List Char) : Bool := hasSubList aliasTok (v.map lowerAscii)

/-- `soup.find("img", {place: re.compile(aliasTok, re.I)})`: the first `img`
element whose attribute `place` exists and matches the aliasTok pattern. -/
def soupFindImg (doc : List Element) (place aliasTok : List Char) : Option Element :=
  doc.find? (fun e =>
    e.tag == (r"img").toList &&
    (match attrLookup e place with
     | some v => containsCI v aliasTok
     | none => false))

/-- The value ends in `.jpg`, `.png` or `.svg` after lowercasing. -/
def hasPhotoExt (l : List Char) : Bool :=
  (r".jpg").toList.isSuffixOf l || (r".png").toList.isSuffixOf l ||
  (r".svg").toList.isSuffixOf l

/-- `is_photo_pattern.search(v)` where
`is_photo_pattern = re.compile(r'\.(jpg|png|svg)$', re.I)`.  Python's `$`
(without `re.M`) matches at the end of the string and also just before a
single trailing newline, so a value such as `a.png` followed by one `\n` is
accepted as well. -/
def isPhotoSearch (s : List Char) : Bool :=
  hasPhotoExt (s.map lowerAscii) ||
  ((s.map lowerAscii).getLast? == some '\n' && hasPhotoExt (s.map lowerAscii).dropLast)

/-- Predicate taken from the specification text, for comparison with the
source behaviour: the `src` value ends, case-insensitively, in `.jpg`,
`.png`, or `.svg`. -/
def endsInPhotoExtension (s : List Char) : Bool := hasPhotoExt (s.map lowerAscii)

/-- The attribute names searched, in source order. -/
def hiding_place : List (List Char) :=
  [(r"class").toList, (r"src").toList, (r"id").toList, (r"alt").toList]

/-- The aliasTok tokens searched, in source order (the source spells the name
`alliases`). -/
def alliases : List (List Char) :=
  [(r"logo").toList, (r"brand").toList, (r"site").toList,
   (r"company").toList, (r"name").toList]

/-- Body of the nested loop of `find_logo` for one (attribute, aliasTok) pair:
find the element, and yield its `src` when that exists and looks like an
image file; otherwise yield nothing so that the loop continues. -/
def tryPlaceAlias (doc : List Element) (place aliasTok : List Char) : Option (List Char) :=
  match soupFindImg doc place aliasTok with
  | some logo =>
    match attrLookup logo ((r"src").toList) with
    | some v => if isPhotoSearch v then some v else none
    | none => none
  | none => none

/-- `find_logo` of the source: iterate the attribute names (outer) and the
aliasTok tokens (inner), returning the first qualifying `src` value. -/
def find_logo (doc : List Element) : Option (List Char) :=
  hiding_place.findSome? (fun place =>
    alliases.findSome? (fun aliasTok => tryPlaceAlias doc place aliasTok))

/-- The twenty (attribute, aliasTok) pairs in the priority order asserted by the
specification: `class` > `src` > `id` > `alt` outside, `logo` > `brand` >
`site` > `company` > `name` inside. -/
def logoPairs : List (List Char × List Char) :=
  [((r"class").toList, (r"logo").toList), ((r"class").toList, (r"brand").toList),
   ((r"class").toList, (r"site").toList), ((r"class").toList, (r"company").toList),
   ((r"class").toList, (r"name").toList),
   ((r"src").toList, (r"logo").toList), ((r"src").toList, (r"brand").toList),
   ((r"src").toList, (r"site").toList), ((r"src").toList, (r"company").toList),
   ((r"src").toList, (r"name").toList),
   ((r"id").toList, (r"logo").toList), ((r"id").toList, (r"brand").toList),
   ((r"id").toList, (r"site").toList), ((r"id").toList, (r"company").toList),
   ((r"id").toList, (r"name").toList),
   ((r"alt").toList, (r"logo").toList), ((r"alt").toList, (r"brand").toList),
   ((r"alt").toList, (r"site").toList), ((r"alt").toList, (r"company").toList),
   ((r"alt").toList, (r"name").toList)]

/-! URL resolver.  `urllib.parse.urlparse` is modelled on the two components
`return_logo_url` reads, `scheme` and `netloc`, following the current CPython
`urlsplit`: the URL is first sanitised (leading C0-control/space characters
stripped, every tab, carriage return and newline removed), a scheme is split
off at the first `:` when the text before it is a nonempty run of scheme
characters starting with an ASCII letter (the scheme is lowercased), and a
netloc is present exactly when the remainder begins with `//`, extending to
the next `/`, `?` or `#`.  The `ValueError` urlsplit raises on unbalanced
square brackets in a netloc is outside this model. -/

/-- Parsed URL restricted to the fields the resolver uses. -/
structure ParsedUrl where
  scheme : List Char
  netloc : List Char

/-- ASCII letter. -/
def isAsciiAlpha (c : Char) : Bool :=
  (65 ≤ c.toNat && c.toNat ≤ 90) || (97 ≤ c.toNat && c.toNat ≤ 122)

/-- Characters allowed in a URL scheme: letters, digits, `+`, `-`, `.`. -/
def isSchemeChar (c : Char) : Bool :=
  isAsciiAlpha c || isDigitChar c || c == '+' || c == '-' || c == '.'

/-- The sanitisation `urlsplit` applies first: strip leading C0 control and
space characters, then remove every tab, carriage return and newline. -/
def sanitizeUrl (u : List Char) : List Char :=
  (u.dropWhile (fun ch => ch.toNat ≤ 32)).filter
    (fun ch => !(ch == '\t' || ch == '\r' || ch == '\n'))

/-- Scheme splitting of `urlsplit`: at the first `:`, provided the text
before it is nonempty, starts with an ASCII letter and consists of scheme
characters. -/
def schemeSplit (u : List Char) : List Char × List Char :=
  let pre := u.takeWhile (fun ch => !(ch == ':'))
  if pre.length < u.length ∧
      (match pre with
       | c0 :: _ => isAsciiAlpha c0 && pre.all isSchemeChar
       | [] => false) = true
  then (pre.map lowerAscii, u.drop (pre.length + 1))
  else ([], u)

/-- `urlparse` restricted to the `scheme` and `netloc` fields. -/
def urlparse (u0 : List Char) : ParsedUrl :=
  let u := sanitizeUrl u0
  let sr := schemeSplit u
  match sr.2 with
  | '/' :: '/' :: r =>
    ⟨sr.1, r.takeWhile (fun ch => !(ch == '/' || ch == '?' || ch == '#'))⟩
  | _ => ⟨sr.1, []⟩

/-- The string `s` ends with the character `c` (`str.endswith` for one
character). -/
def endsWithChar (s : List Char) (c : Char) : Bool := s.getLast? == some c

/-- The string `s` starts with the character `c` (`str.startswith` for one
character). -/
def startsWithChar (s : List Char) (c : Char) : Bool := s.head? == some c

/-- The base `{scheme}://{netloc}` built by `return_logo_url` from the page
URL. -/
def baseOf (url : List Char) : List Char :=
  (urlparse url).scheme ++ (r"://").toList ++ (urlparse url).netloc

/-- `return_logo_url` of the source: a logo reference that already carries a
netloc is returned unchanged; otherwise it is appended to
`{scheme}://{netloc}` of the page URL, with one `/` inserted when the base
does not end with `/` and the logo does not start with `/`. -/
def return_logo_url (logo url : List Char) : List Char :=
  if (urlparse logo).netloc ≠ [] then logo
  else
    (if endsWithChar (baseOf url) '/' = false ∧ startsWithChar logo '/' = false
     then baseOf url ++ [ '/' ]
     else baseOf url) ++ logo

/-! Concrete inputs used by the example claims and by witnesses. -/

/-- The date-versus-phone example text of the specification. -/
def dateText : List Char := (r"Call us: 2024-05-01 or (021) 555-1234 today").toList

/-- The year-versus-toll-free example text of the specification. -/
def yearText : List Char := (r"1999 was a year, call 0800 123 456").toList

/-- A text whose two candidates have equal digit-only projections, exercising
deduplication. -/
def dupText : List Char := (r"a 0800 123 456, b 0800-123-456,").toList

/-- A simple text with one surviving phone-number candidate. -/
def plainText : List Char := (r"call 0800 123 456!").toList

/-- The candidate surviving from `plainText` (and, once, from `dupText`). -/
def plainNum : List Char := (r"0800 123 456").toList

/-- A one-element document whose only image is alias-matched through `class`
but carries a `src` value with a trailing newline after the extension. -/
def newlineDoc : List Element :=
  [⟨(r"img").toList,
    [((r"class").toList, (r"logo").toList),
     ((r"src").toList, (r"a.png").toList ++ [ '\n' ])]⟩]

/-- A one-element document whose image is found by the second (attribute,
alias) pair `(class, brand)` and not by the first `(class, logo)`. -/
def brandDoc : List Element :=
  [⟨(r"img").toList,
    [((r"class").toList, (r"brandmark").toList),
     ((r"src").toList, (r"/b.svg").toList)]⟩]

/-! Helper lemmas about the filter pipeline. -/

theorem isDigitChar_true_iff (c : Char) :
    isDigitChar c = true ↔ 48 ≤ c.toNat ∧ c.toNat ≤ 57 := by
  simp [isDigitChar]

theorem isDigitChar_eq_false (c : Char) (h : ¬(48 ≤ c.toNat ∧ c.toNat ≤ 57)) :
    isDigitChar c = false := by
  cases hb : isDigitChar c
  · rfl
  · exact absurd ((isDigitChar_true_iff c).mp hb) h

theorem isPySpace_not_digit (c : Char) (h : isPySpace c = true) :
    isDigitChar c = false := by
  apply isDigitChar_eq_false
  simp only [isPySpace, Bool.or_eq_true, Bool.and_eq_true, decide_eq_true_eq,
    beq_iff_eq] at h
  rcases h with ((((((((((h | h) | h) | h) | h) | h) | h) | h) | h) | h) | h) <;> omega

theorem countDigits_eq_length_digitsOnly (s : List Char) :
    countDigits s = (digitsOnly s).length := rfl

theorem digitsOnly_cons_of_not_digit (c : Char) (s : List Char)
    (h : isDigitChar c = false) : digitsOnly (c :: s) = digitsOnly s := by
  simp [digitsOnly, List.filter_cons, h]

theorem digitsOnly_dropWhile (p : Char → Bool) (s : List Char)
    (hp : ∀ c, p c = true → isDigitChar c = false) :
    digitsOnly (s.dropWhile p) = digitsOnly s := by
  induction s with
  | nil => rfl
  | cons c rest ih =>
    by_cases h : p c = true
    · rw [List.dropWhile_cons, if_pos h, ih, digitsOnly_cons_of_not_digit c rest (hp c h)]
    · rw [List.dropWhile_cons, if_neg h]

theorem digitsOnly_reverse (s : List Char) :
    digitsOnly s.reverse = (digitsOnly s).reverse :=
  List.filter_reverse _ _

theorem countDigits_pyStrip (p : Char → Bool) (s : List Char)
    (hp : ∀ c, p c = true → isDigitChar c = false) :
    countDigits (pyStrip p s) = countDigits s := by
  simp only [pyStrip, pyRStrip, pyLStrip, countDigits_eq_length_digitsOnly,
    digitsOnly_reverse, digitsOnly_dropWhile p _ hp, List.length_reverse]

theorem countDigits_pyRStrip (p : Char → Bool) (s : List Char)
    (hp : ∀ c, p c = true → isDigitChar c = false) :
    countDigits (pyRStrip p s) = countDigits s := by
  simp only [pyRStrip, countDigits_eq_length_digitsOnly, digitsOnly_reverse,
    digitsOnly_dropWhile p _ hp, List.length_reverse]

theorem digitsOnly_cons_of_digit (c : Char) (s : List Char)
    (h : isDigitChar c = true) : digitsOnly (c :: s) = c :: digitsOnly s := by
  simp [digitsOnly, List.filter_cons, h]

theorem countDigits_replaceChar (a b : Char) (s : List Char)
    (ha : isDigitChar a = false) (hb : isDigitChar b = false) :
    countDigits (replaceChar a b s) = countDigits s := by
  induction s with
  | nil => rfl
  | cons c rest ih =>
    show countDigits ((if c == a then b else c) :: replaceChar a b rest) =
      countDigits (c :: rest)
    by_cases h : (c == a) = true
    · have hc : isDigitChar c = false := by rw [beq_iff_eq.mp h]; exact ha
      rw [if_pos h, countDigits_eq_length_digitsOnly,
        countDigits_eq_length_digitsOnly, digitsOnly_cons_of_not_digit b _ hb,
        digitsOnly_cons_of_not_digit c _ hc]
      exact ih
    · rw [if_neg h]
      by_cases hc : isDigitChar c = true
      · rw [countDigits_eq_length_digitsOnly, countDigits_eq_length_digitsOnly,
          digitsOnly_cons_of_digit c _ hc, digitsOnly_cons_of_digit c _ hc,
          List.length_cons, List.length_cons]
        exact congrArg Nat.succ ih
      · have hc' : isDigitChar c = false := Bool.eq_false_iff.mpr hc
        rw [countDigits_eq_length_digitsOnly, countDigits_eq_length_digitsOnly,
          digitsOnly_cons_of_not_digit c _ hc', digitsOnly_cons_of_not_digit c _ hc']
        exact ih

theorem countDigits_eq_zero_of_no_digit (s : List Char)
    (h : ∀ c ∈ s, isDigitChar c = false) : countDigits s = 0 := by
  induction s with
  | nil => rfl
  | cons c rest ih =>
    rw [countDigits_eq_length_digitsOnly,
      digitsOnly_cons_of_not_digit c rest (h c (List.mem_cons_self c rest)),
      ← countDigits_eq_length_digitsOnly]
    exact ih (fun x hx => h x (List.mem_cons_of_mem c hx))

theorem countDigits_append (s t : List Char) :
    countDigits (s ++ t) = countDigits s + countDigits t := by
  simp [countDigits, List.filter_append]

theorem countDigits_collapseWsGo (l : List Char) : ∀ run : List Char,
    (∀ c ∈ run, isPySpace c = true) →
    countDigits (collapseWsGo run l) = countDigits l := by
  induction l with
  | nil =>
    intro run hr
    have h0 : countDigits run = 0 :=
      countDigits_eq_zero_of_no_digit run (fun c hc => isPySpace_not_digit c (hr c hc))
    show countDigits (if run.length == 1 then run else []) = countDigits []
    split
    · rw [h0]; rfl
    · rfl
  | cons c rest ih =>
    intro run hr
    show countDigits (if isPySpace c then collapseWsGo (c :: run) rest
      else (if run.length == 1 then run else []) ++ c :: collapseWsGo [] rest) =
      countDigits (c :: rest)
    by_cases hc : isPySpace c = true
    · rw [if_pos hc]
      rw [ih (c :: run) (by
        intro x hx
        rcases List.mem_cons.mp hx with rfl | hx
        · exact hc
        · exact hr x hx)]
      rw [countDigits_eq_length_digitsOnly, countDigits_eq_length_digitsOnly,
        digitsOnly_cons_of_not_digit c rest (isPySpace_not_digit c hc)]
    · rw [if_neg hc]
      have h0 : countDigits run = 0 :=
        countDigits_eq_zero_of_no_digit run (fun x hx => isPySpace_not_digit x (hr x hx))
      have hkeep : countDigits (if run.length == 1 then run else []) = 0 := by
        split
        · exact h0
        · rfl
      have htail := ih [] (by intro x hx; cases hx)
      rw [countDigits_append, hkeep, Nat.zero_add]
      by_cases hd : isDigitChar c = true
      · rw [countDigits_eq_length_digitsOnly, countDigits_eq_length_digitsOnly,
          digitsOnly_cons_of_digit c _ hd, digitsOnly_cons_of_digit c _ hd,
          List.length_cons, List.length_cons]
        rw [countDigits_eq_length_digitsOnly, countDigits_eq_length_digitsOnly] at htail
        exact congrArg Nat.succ htail
      · have hd' : isDigitChar c = false := Bool.eq_false_iff.mpr hd
        rw [countDigits_eq_length_digitsOnly, countDigits_eq_length_digitsOnly,
          digitsOnly_cons_of_not_digit c _ hd', digitsOnly_cons_of_not_digit c _ hd']
        rw [countDigits_eq_length_digitsOnly, countDigits_eq_length_digitsOnly] at htail
        exact htail

theorem countDigits_collapseWs (s : List Char) :
    countDigits (collapseWs s) = countDigits s :=
  countDigits_collapseWsGo s [] (by intro x hx; cases hx)

theorem countDigits_normalizeSegment (part : List Char) :
    countDigits (normalizeSegment part) = countDigits part := by
  unfold normalizeSegment
  rw [countDigits_collapseWs]
  rw [countDigits_replaceChar '/' ' ' _ (by decide) (by decide)]
  rw [countDigits_replaceChar '-' ' ' _ (by decide) (by decide)]
  rw [countDigits_pyRStrip _ _ (by
    intro c h
    rcases (Bool.or_eq_true _ _).mp h with h | h <;>
      rw [beq_iff_eq.mp h] <;> decide)]
  rw [countDigits_pyStrip _ _ (by
    intro c h
    rcases (Bool.or_eq_true _ _).mp h with h | h <;>
      rw [beq_iff_eq.mp h] <;> decide)]

theorem processPart_eq_some (part out : List Char)
    (h : processPart part = some out) :
    out = normalizeSegment part ∧
    6 ≤ countDigits part ∧ countDigits part ≤ 15 ∧
    out.any (fun c => !(isDigitChar c)) = true := by
  unfold processPart at h
  split at h
  case isTrue hcnt =>
    split at h
    · cases h
    case isFalse hbad =>
      split at h
      case isTrue hnd =>
        split at h
        · cases h
        split at h
        · cases h
        have hout := (Option.some.inj h).symm
        exact ⟨hout, hcnt.1, hcnt.2, hout ▸ hnd⟩
      case isFalse => cases h
  case isFalse => cases h

theorem exists_processPart_of_mem_collect (text s : List Char)
    (h : s ∈ collectNumbers text) : ∃ part, processPart part = some s := by
  unfold collectNumbers at h
  rw [List.mem_flatten] at h
  obtain ⟨l, hl, hs⟩ := h
  rw [List.mem_map] at hl
  obtain ⟨num, hnum, rfl⟩ := hl
  unfold candidateSegments at hs
  split at hs
  · exact absurd hs (List.not_mem_nil s)
  · rw [List.mem_filterMap] at hs
    obtain ⟨part, hmem, hp⟩ := hs
    exact ⟨part, hp⟩

theorem get_numbers_eq (text : List Char) (out : List (List Char))
    (h : get_numbers text = some out) :
    out = remove_duplicates (collectNumbers text) := by
  unfold get_numbers at h
  split at h
  · cases h
  · exact (Option.some.inj h).symm

/-! Helper lemmas about the duplicate-removal loop. -/

theorem removeDuplicatesAux_not_seen (l : List (List Char)) : ∀ seen x,
    x ∈ removeDuplicatesAux seen l → digitsOnly x ∉ seen := by
  induction l with
  | nil => intro seen x hx; cases hx
  | cons item rest ih =>
    intro seen x hx
    unfold removeDuplicatesAux at hx
    split at hx
    · exact ih seen x hx
    case isFalse hnot =>
      rcases List.mem_cons.mp hx with rfl | hx
      · exact hnot
      · intro hmem
        exact (ih _ x hx) (List.mem_cons_of_mem _ hmem)

theorem removeDuplicatesAux_sublist (l : List (List Char)) : ∀ seen,
    (removeDuplicatesAux seen l).Sublist l := by
  induction l with
  | nil => intro seen; exact List.Sublist.refl []
  | cons item rest ih =>
    intro seen
    unfold removeDuplicatesAux
    split
    · exact (ih seen).cons item
    · exact (ih _).cons₂ item

theorem removeDuplicatesAux_find (l : List (List Char)) : ∀ seen x,
    x ∈ removeDuplicatesAux seen l →
    l.find? (fun y => digitsOnly y == digitsOnly x) = some x := by
  induction l with
  | nil => intro seen x hx; cases hx
  | cons item rest ih =>
    intro seen x hx
    unfold removeDuplicatesAux at hx
    split at hx
    case isTrue hseen =>
      have hne : (digitsOnly item == digitsOnly x) = false := by
        rw [beq_eq_false_iff_ne]
        intro heq
        exact (removeDuplicatesAux_not_seen rest seen x hx) (heq ▸ hseen)
      rw [List.find?_cons, hne]
      exact ih seen x hx
    case isFalse hnot =>
      rcases List.mem_cons.mp hx with rfl | hx
      · rw [List.find?_cons, beq_self_eq_true]
      · have hx' := removeDuplicatesAux_not_seen rest _ x hx
        have hne : (digitsOnly item == digitsOnly x) = false := by
          rw [beq_eq_false_iff_ne]
          intro heq
          exact hx' (heq ▸ List.mem_cons_self _ _)
        rw [List.find?_cons, hne]
        exact ih _ x hx

theorem removeDuplicatesAux_pairwise (l : List (List Char)) : ∀ seen,
    (removeDuplicatesAux seen l).Pairwise
      (fun a b => digitsOnly a ≠ digitsOnly b) := by
  induction l with
  | nil => intro seen; exact List.Pairwise.nil
  | cons item rest ih =>
    intro seen
    unfold removeDuplicatesAux
    split
    · exact ih seen
    · refine List.Pairwise.cons ?_ (ih _)
      intro b hb heq
      exact (removeDuplicatesAux_not_seen rest _ b hb)
        (heq ▸ List.mem_cons_self _ _)

theorem removeDuplicatesAux_first_idx (l : List (List Char)) : ∀ seen,
    (removeDuplicatesAux seen l).Pairwise (fun a b =>
      l.findIdx (fun y => digitsOnly y == digitsOnly a) <
      l.findIdx (fun y => digitsOnly y == digitsOnly b)) := by
  induction l with
  | nil => intro seen; exact List.Pairwise.nil
  | cons item rest ih =>
    intro seen
    unfold removeDuplicatesAux
    have shift : ∀ z, digitsOnly z ≠ digitsOnly item →
        (item :: rest).findIdx (fun y => digitsOnly y == digitsOnly z) =
        rest.findIdx (fun y => digitsOnly y == digitsOnly z) + 1 := by
      intro z hz
      rw [List.findIdx_cons]
      have : (digitsOnly item == digitsOnly z) = false := by
        rw [beq_eq_false_iff_ne]; exact fun heq => hz heq.symm
      simp [this]
    split
    case isTrue hseen =>
      refine (ih seen).imp_of_mem ?_
      intro a b ha hb hlt
      have hna : digitsOnly a ≠ digitsOnly item := by
        intro heq
        exact (removeDuplicatesAux_not_seen rest seen a ha) (heq ▸ hseen)
      have hnb : digitsOnly b ≠ digitsOnly item := by
        intro heq
        exact (removeDuplicatesAux_not_seen rest seen b hb) (heq ▸ hseen)
      rw [shift a hna, shift b hnb]
      omega
    case isFalse hnot =>
      refine List.Pairwise.cons ?_ ?_
      · intro b hb
        have hnb : digitsOnly b ≠ digitsOnly item := by
          intro heq
          exact (removeDuplicatesAux_not_seen rest _ b hb)
            (heq ▸ List.mem_cons_self _ _)
        rw [shift b hnb, List.findIdx_cons]
        simp
      · refine (ih _).imp_of_mem ?_
        intro a b ha hb hlt
        have hna : digitsOnly a ≠ digitsOnly item := by
          intro heq
          exact (removeDuplicatesAux_not_seen rest _ a ha)
            (heq ▸ List.mem_cons_self _ _)
        have hnb : digitsOnly b ≠ digitsOnly item := by
          intro heq
          exact (removeDuplicatesAux_not_seen rest _ b hb)
            (heq ▸ List.mem_cons_self _ _)
        rw [shift a hna, shift b hnb]
        omega

/-! Claim theorems about the phone-number extractor. -/

/-- C1: for every input text, the sequence returned by the phone-number
extractor contains no two entries whose digit-only projections are equal,
and each entry is the first-encountered candidate (in discovery order) with
its digit-only projection. -/
theorem get_numbers_dedup_invariant (text : List Char) (out : List (List Char))
    (h : get_numbers text = some out) :
    out.Pairwise (fun a b => digitsOnly a ≠ digitsOnly b) ∧
    ∀ x ∈ out,
      (collectNumbers text).find? (fun y => digitsOnly y == digitsOnly x) = some x := by
  rw [get_numbers_eq text out h, remove_duplicates]
  exact ⟨removeDuplicatesAux_pairwise _ [],
    fun x hx => removeDuplicatesAux_find _ [] x hx⟩

/-- Witness for C1 at a concrete text containing a formatting duplicate. -/
theorem get_numbers_dedup_invariant_witness :
    get_numbers dupText = some [plainNum] ∧
    List.Pairwise (fun a b => digitsOnly a ≠ digitsOnly b) [plainNum] ∧
    (collectNumbers dupText).find?
      (fun y => digitsOnly y == digitsOnly plainNum) = some plainNum := by
  have h : get_numbers dupText = some [plainNum] := by decide
  exact ⟨h, (get_numbers_dedup_invariant dupText [plainNum] h).1,
    (get_numbers_dedup_invariant dupText [plainNum] h).2 plainNum
      (List.mem_singleton.mpr rfl)⟩

/-- C2: for every input text, every string in the phone-number output has
between 6 and 15 digit characters inclusive. -/
theorem get_numbers_digit_count_bound (text : List Char) (out : List (List Char))
    (h : get_numbers text = some out) :
    ∀ s ∈ out, 6 ≤ countDigits s ∧ countDigits s ≤ 15 := by
  intro s hs
  rw [get_numbers_eq text out h, remove_duplicates] at hs
  have hmem : s ∈ collectNumbers text := (removeDuplicatesAux_sublist _ []).subset hs
  obtain ⟨part, hp⟩ := exists_processPart_of_mem_collect text s hmem
  obtain ⟨hout, h6, h15, _⟩ := processPart_eq_some part s hp
  rw [hout, countDigits_normalizeSegment]
  exact ⟨h6, h15⟩

/-- Witness for C2 at a concrete text. -/
theorem get_numbers_digit_count_bound_witness :
    get_numbers plainText = some [plainNum] ∧
    (6 ≤ countDigits plainNum ∧ countDigits plainNum ≤ 15) := by
  have h : get_numbers plainText = some [plainNum] := by decide
  exact ⟨h, get_numbers_digit_count_bound plainText [plainNum] h plainNum
    (List.mem_singleton.mpr rfl)⟩

/-- C3: for every input text, the output is a sublist of the candidate list
(surviving segments are appended in discovery order and deduplication keeps
relative order), and successive entries have strictly increasing indices of
first qualifying appearance of their digit-only projections. -/
theorem get_numbers_first_appearance_order (text : List Char) (out : List (List Char))
    (h : get_numbers text = some out) :
    out.Sublist (collectNumbers text) ∧
    out.Pairwise (fun a b =>
      (collectNumbers text).findIdx (fun y => digitsOnly y == digitsOnly a) <
      (collectNumbers text).findIdx (fun y => digitsOnly y == digitsOnly b)) := by
  rw [get_numbers_eq text out h, remove_duplicates]
  exact ⟨removeDuplicatesAux_sublist _ [], removeDuplicatesAux_first_idx _ []⟩

/-- Witness for C3 at a concrete text. -/
theorem get_numbers_first_appearance_order_witness :
    get_numbers dupText = some [plainNum] ∧
    List.Sublist [plainNum] (collectNumbers dupText) ∧
    List.Pairwise (fun a b =>
      (collectNumbers dupText).findIdx (fun y => digitsOnly y == digitsOnly a) <
      (collectNumbers dupText).findIdx (fun y => digitsOnly y == digitsOnly b))
      [plainNum] := by
  have h : get_numbers dupText = some [plainNum] := by decide
  exact ⟨h, (get_numbers_first_appearance_order dupText [plainNum] h).1,
    (get_numbers_first_appearance_order dupText [plainNum] h).2⟩

/-- C9: for every input text, no output entry consists entirely of digit
characters, so a bare all-digit identifier can never appear in the output. -/
theorem get_numbers_no_all_digit_entry (text : List Char) (out : List (List Char))
    (h : get_numbers text = some out) :
    ∀ s ∈ out, ∃ c ∈ s, isDigitChar c = false := by
  intro s hs
  rw [get_numbers_eq text out h, remove_duplicates] at hs
  have hmem : s ∈ collectNumbers text := (removeDuplicatesAux_sublist _ []).subset hs
  obtain ⟨part, hp⟩ := exists_processPart_of_mem_collect text s hmem
  obtain ⟨_, _, _, hany⟩ := processPart_eq_some part s hp
  obtain ⟨c, hc, hcd⟩ := List.any_eq_true.mp hany
  exact ⟨c, hc, by simpa using hcd⟩

/-- Witness for C9 at a concrete text. -/
theorem get_numbers_no_all_digit_entry_witness :
    get_numbers plainText = some [plainNum] ∧
    ∃ c ∈ plainNum, isDigitChar c = false := by
  have h : get_numbers plainText = some [plainNum] := by decide
  exact ⟨h, get_numbers_no_all_digit_entry plainText [plainNum] h plainNum
    (List.mem_singleton.mpr rfl)⟩

/-- C6 counterexample: on empty input text the extractor returns the separate
absent value `none` (Python `None`), not an empty sequence, refuting the
claim that an empty result rather than a distinct absent value is returned. -/
theorem get_numbers_empty_counterexample : get_numbers [] = none := by decide

/-- C6 amended: for every input text the extractor returns either the absent
value `None` or a non-empty sequence of strings; for empty input text it
returns the absent value. -/
theorem get_numbers_none_or_nonempty :
    (∀ text out, get_numbers text = some out → 0 < out.length) ∧
    get_numbers [] = none := by
  constructor
  · intro text out h
    unfold get_numbers at h
    split at h
    · cases h
    case isFalse hne =>
      rw [(Option.some.inj h).symm]
      exact List.length_pos.mpr hne
  · decide

/-- Witness for (amended) C6 at a concrete text. -/
theorem get_numbers_none_or_nonempty_witness :
    get_numbers plainText = some [plainNum] ∧ 0 < ([plainNum]).length :=
  ⟨by decide, get_numbers_none_or_nonempty.1 plainText [plainNum] (by decide)⟩

/-- C7: on the specification's date example the date-shaped candidate
`2024-05-01` is rejected (it never even enters the candidate list) and the
output is exactly the normalised form of `(021) 555-1234`, which has the same
digit-only projection as the raw candidate. -/
theorem get_numbers_date_example :
    get_numbers dateText = some [(r"(021) 555 1234").toList] ∧
    digitsOnly ((r"(021) 555 1234").toList) =
      digitsOnly ((r"(021) 555-1234").toList) ∧
    (collectNumbers dateText).contains ((r"2024-05-01").toList) = false := by
  refine ⟨by decide, by decide, by decide⟩

/-- C8: on the specification's year example the output excludes `1999`
(the candidate list never contains it) and contains exactly one entry, which
begins with the literal digits `0800`. -/
theorem get_numbers_year_example :
    get_numbers yearText = some [(r"0800 123").toList] ∧
    ((r"0800 123").toList).take 4 = (r"0800").toList ∧
    (collectNumbers yearText).contains ((r"1999").toList) = false := by
  refine ⟨by decide, by decide, by decide⟩

/-! Claim theorems about the logo locator and the URL resolver. -/

theorem findSome?_map_pair (doc : List Element) (place : List Char) :
    (alliases.map (fun al => (place, al))).findSome?
        (fun pr => tryPlaceAlias doc pr.1 pr.2) =
      alliases.findSome? (fun al => tryPlaceAlias doc place al) := by
  rw [List.findSome?_map]
  rfl

/-- The nested loops of `find_logo` visit exactly the twenty pairs of
`logoPairs` in order. -/
theorem find_logo_eq_pairs (doc : List Element) :
    find_logo doc = logoPairs.findSome? (fun pr => tryPlaceAlias doc pr.1 pr.2) := by
  have hsplit : logoPairs =
      (alliases.map fun al => ((r"class").toList, al)) ++
      ((alliases.map fun al => ((r"src").toList, al)) ++
      ((alliases.map fun al => ((r"id").toList, al)) ++
       (alliases.map fun al => ((r"alt").toList, al)))) := by rfl
  rw [hsplit, List.findSome?_append, List.findSome?_append, List.findSome?_append,
    findSome?_map_pair, findSome?_map_pair, findSome?_map_pair, findSome?_map_pair]
  unfold find_logo hiding_place
  simp only [List.findSome?_cons, List.findSome?_nil]
  cases alliases.findSome? (fun aliasTok => tryPlaceAlias doc ((r"class").toList) aliasTok) with
  | some b => rfl
  | none =>
    cases alliases.findSome? (fun aliasTok => tryPlaceAlias doc ((r"src").toList) aliasTok) with
    | some b => rfl
    | none =>
      cases alliases.findSome? (fun aliasTok => tryPlaceAlias doc ((r"id").toList) aliasTok) with
      | some b => rfl
      | none =>
        cases alliases.findSome? (fun aliasTok => tryPlaceAlias doc ((r"alt").toList) aliasTok) with
        | some b => rfl
        | none => rfl

/-- C4 amended: `find_logo` returns `some s` exactly when the ordered pair
list `logoPairs` (attribute priority `class` > `src` > `id` > `alt`, alias
priority `logo` > `brand` > `site` > `company` > `name`) splits into a prefix
of pairs whose lookup yields nothing (element absent, `src` missing, or
`src` not accepted by the image-extension search, which also accepts one
trailing newline after the extension) followed by a first pair yielding `s`;
and it returns `none` exactly when every pair yields nothing. -/
theorem find_logo_first_match_policy (doc : List Element) :
    (∀ s, find_logo doc = some s ↔
      ∃ pre pr post, logoPairs = pre ++ pr :: post ∧
        tryPlaceAlias doc pr.1 pr.2 = some s ∧
        ∀ q ∈ pre, tryPlaceAlias doc q.1 q.2 = none) ∧
    (find_logo doc = none ↔ ∀ pr ∈ logoPairs, tryPlaceAlias doc pr.1 pr.2 = none) := by
  constructor
  · intro s
    rw [find_logo_eq_pairs doc, List.findSome?_eq_some_iff]
  · rw [find_logo_eq_pairs doc, List.findSome?_eq_none_iff]

/-- Witness for (amended) C4: in `brandDoc` the pair `(class, logo)` fails
and the next pair `(class, brand)` qualifies, so `find_logo` returns its
`src`. -/
theorem find_logo_first_match_policy_witness :
    find_logo brandDoc = some ((r"/b.svg").toList) := by
  refine ((find_logo_first_match_policy brandDoc).1 _).mpr ?_
  exact ⟨[((r"class").toList, (r"logo").toList)],
    ((r"class").toList, (r"brand").toList), logoPairs.drop 2,
    by decide, by decide, by decide⟩

/-- C4 counterexample: in `newlineDoc` the only image matches the very first
pair, its `src` value `a.png` followed by a newline does not end in a
recognised extension, yet `find_logo` returns it instead of skipping the
element, because Python's `$` also matches before one trailing newline. -/
theorem find_logo_extension_counterexample :
    find_logo newlineDoc = some ((r"a.png").toList ++ [ '\n' ]) ∧
    endsInPhotoExtension ((r"a.png").toList ++ [ '\n' ]) = false := by
  exact ⟨by decide, by decide⟩

/-- C5: for every logo reference and base URL, a logo reference carrying a
network-location component is returned unchanged; otherwise the result is
`{scheme}://{netloc}` of the base URL concatenated with the logo reference,
with exactly one `/` inserted when the base does not end with `/` and the
logo reference does not start with `/`, and no separator inserted
otherwise. -/
theorem return_logo_url_resolution (logo url : List Char) :
    ((urlparse logo).netloc ≠ [] → return_logo_url logo url = logo) ∧
    ((urlparse logo).netloc = [] →
      (endsWithChar (baseOf url) '/' = false ∧ startsWithChar logo '/' = false →
        return_logo_url logo url = baseOf url ++ [ '/' ] ++ logo) ∧
      (endsWithChar (baseOf url) '/' = true ∨ startsWithChar logo '/' = true →
        return_logo_url logo url = baseOf url ++ logo)) := by
  refine ⟨?_, ?_⟩
  · intro hn
    unfold return_logo_url
    rw [if_pos hn]
  · intro hn
    refine ⟨?_, ?_⟩
    · intro hc
      unfold return_logo_url
      rw [if_neg (fun hcon => hcon hn), if_pos hc, List.append_assoc]
    · intro hor
      unfold return_logo_url
      rw [if_neg (fun hcon => hcon hn), if_neg (by
        rintro ⟨h1, h2⟩
        rcases hor with h | h
        · rw [h1] at h; cases h
        · rw [h2] at h; cases h)]

/-- Witness for C5 at the two examples of the claim: an absolute logo
reference is returned unchanged, and a root-relative reference is appended
to the scheme-and-host of the page URL. -/
theorem return_logo_url_resolution_witness :
    return_logo_url ((r"https://cdn.other.com/l.svg").toList)
        ((r"https://example.com/page").toList) =
      (r"https://cdn.other.com/l.svg").toList ∧
    return_logo_url ((r"/img/logo.png").toList)
        ((r"https://example.com/page").toList) =
      (r"https://example.com/img/logo.png").toList := by
  constructor
  · exact (return_logo_url_resolution _ _).1 (by decide)
  · have h := ((return_logo_url_resolution ((r"/img/logo.png").toList)
      ((r"https://example.com/page").toList)).2 (by decide)).2 (Or.inr (by decide))
    exact h.trans (by decide)

/-- The netloc `urlparse` computes for a protocol-relative reference
`//host...` whose first host character is not a delimiter: nonempty, starting
at that character. -/
theorem urlparse_protocol_relative (c : Char) (rest : List Char)
    (h2 : (c == '/' || c == '?' || c == '#') = false)
    (h3 : ∀ ch ∈ ('/' :: '/' :: c :: rest),
      (ch == '\t' || ch == '\r' || ch == '\n') = false) :
    (urlparse ('/' :: '/' :: c :: rest)).netloc =
      c :: rest.takeWhile (fun ch => !(ch == '/' || ch == '?' || ch == '#')) := by
  have hsan : sanitizeUrl ('/' :: '/' :: c :: rest) = '/' :: '/' :: c :: rest := by
    unfold sanitizeUrl
    rw [List.dropWhile_cons, if_neg (by decide)]
    exact List.filter_eq_self.mpr (fun a ha => by rw [h3 a ha]; rfl)
  have hpre : ∃ t, (('/' : Char) :: '/' :: c :: rest).takeWhile
      (fun ch => !(ch == ':')) = '/' :: t := by
    rw [List.takeWhile_cons, if_pos (by decide)]
    exact ⟨_, rfl⟩
  obtain ⟨t, ht⟩ := hpre
  have hsch : schemeSplit ('/' :: '/' :: c :: rest) = ([], '/' :: '/' :: c :: rest) := by
    unfold schemeSplit
    rw [ht]
    rw [if_neg (by
      rintro ⟨hlen, hmatch⟩
      simp [show isAsciiAlpha '/' = false from by decide] at hmatch)]
  simp only [urlparse, hsan, hsch]
  rw [List.takeWhile_cons, if_pos (by rw [h2]; rfl)]

/-- C10: a protocol-relative logo reference (`//` followed by a host) is
assigned a nonempty network-location component by URL parsing, so the
resolver returns it unchanged for every base URL. -/
theorem protocol_relative_unchanged (logo url : List Char) (c : Char) (rest : List Char)
    (h1 : logo = '/' :: '/' :: c :: rest)
    (h2 : (c == '/' || c == '?' || c == '#') = false)
    (h3 : ∀ ch ∈ logo, (ch == '\t' || ch == '\r' || ch == '\n') = false) :
    return_logo_url logo url = logo := by
  subst h1
  unfold return_logo_url
  rw [if_pos (by
    rw [urlparse_protocol_relative c rest h2 h3]
    exact List.cons_ne_nil _ _)]

/-- Witness for C10 at the concrete protocol-relative reference of the
claim. -/
theorem protocol_relative_unchanged_witness :
    return_logo_url ((r"//cdn.example.com/logo.png").toList)
        ((r"https://example.com/page").toList) =
      (r"//cdn.example.com/logo.png").toList :=
  protocol_relative_unchanged _ _ 'c' ((r"dn.example.com/logo.png").toList)
    (by decide) (by decide) (by decide)

end Cial
